import Mathlib

/-!
Verification development for the expression compiler and evaluator of
graph-war (`src/graph.rs`).

The Rust code parses a textual parametric curve (an `x(t)` expression, a
`y(t)` expression and a `where` clause of auxiliary assignments) into a
`Function` AST, and evaluates it with IEEE-754 double precision arithmetic.
This file gives a shallow embedding of that code:

* IEEE-754 `f64` arithmetic is idealized as exact real arithmetic over `ℝ`
  (all values appearing in the verified properties are exactly representable
  and the operations on them are exact in `f64`); non-finite values
  (infinities, NaN) are not modeled, and Lean's `x / 0 = 0` convention
  stands in for the IEEE `±inf`/NaN results.
* The pest parse tree (`Pair<Rule>`) is modeled by the inductive type `PT`
  with one constructor per grammar rule that `Function::from_pair` handles.
  The grammar file `function.pest` itself is not part of the sources, so
  concrete parse trees for concrete input strings are modeled from the
  spec's grammar.
* `eval` in the Rust code is recursive with no termination guard; it is
  embedded as a fuel-indexed function `evalF` where running out of fuel
  models non-termination (unbounded recursion / stack exhaustion) and an
  out-of-bounds `assigns[i]` models the corresponding panic.
* The `as f32` narrowing performed by `Parametric::eval` when it builds a
  `Vec2` is modeled by `f32round`, IEEE-754 binary32 round-to-nearest-even
  (finite idealization: overflow and NaN are not modeled).
-/

namespace GraphWar

/-- Operator tag attached to each term of an `Add` or `Mul` sequence,
from `enum OpType` in graph.rs. -/
inductive OpType where
  | Normal
  | Inverse
  | Third
  | Fourth
  deriving DecidableEq

/-- The 22 unary named functions, from `enum Call1` in graph.rs. -/
inductive Call1 where
  | Sin | Cos | Tan | Asin | Acos | Atan | Sinh | Cosh | Tanh
  | Asinh | Acosh | Atanh | Ln | Log2 | Log10 | Sqrt | Cbrt
  | Abs | Sign | Floor | Ceil | Fract
  deriving DecidableEq

/-- The 3 binary named functions, from `enum Call2` in graph.rs. -/
inductive Call2 where
  | Min | Max | Atan2
  deriving DecidableEq

/-- Truncation toward zero, `f64::trunc`. -/
noncomputable def truncR (x : ℝ) : ℝ :=
  if x < 0 then -((⌊-x⌋ : ℤ) : ℝ) else ((⌊x⌋ : ℤ) : ℝ)

/-- The truncating remainder `a % b` of Rust (`f64`'s `Rem`):
`a - (a / b).trunc() * b`. -/
noncomputable def fRemR (a b : ℝ) : ℝ := a - truncR (a / b) * b

/-- Rust `f64::div_euclid`: the truncated quotient, corrected downward
(resp. upward for a negative divisor) when the truncating remainder is
negative. -/
noncomputable def divEuclidR (a b : ℝ) : ℝ :=
  if fRemR a b < 0 then
    (if 0 < b then truncR (a / b) - 1 else truncR (a / b) + 1)
  else truncR (a / b)

/-- Rust `f64::rem_euclid`: the truncating remainder, shifted by `|b|`
when negative. -/
noncomputable def remEuclidR (a b : ℝ) : ℝ :=
  if fRemR a b < 0 then fRemR a b + |b| else fRemR a b

/-- Rust `f64::fract`: `self - self.trunc()`. -/
noncomputable def fractR (x : ℝ) : ℝ := x - truncR x

/-- Rust `f64::signum`, idealized on reals (the sign bit of `±0.0` and NaN
are not modeled; real `0` gets `1` like `+0.0`). -/
noncomputable def signR (x : ℝ) : ℝ := if x < 0 then -1 else 1

/-- Rust `f64::cbrt`, the real cube root (negative inputs give negative
outputs). -/
noncomputable def cbrtR (x : ℝ) : ℝ :=
  if x < 0 then -((-x) ^ ((1 : ℝ) / 3)) else x ^ ((1 : ℝ) / 3)

/-- Rust `f64::acosh`: `ln (x + sqrt (x^2 - 1))` on `[1, ∞)` (inputs below
the domain give NaN in Rust, not modeled). -/
noncomputable def arcoshR (x : ℝ) : ℝ := Real.log (x + Real.sqrt (x ^ 2 - 1))

/-- Rust `f64::atanh`: `ln ((1 + x) / (1 - x)) / 2` on `(-1, 1)`. -/
noncomputable def artanhR (x : ℝ) : ℝ := Real.log ((1 + x) / (1 - x)) / 2

/-- Rust `f64::atan2(y, x)`: the four-quadrant arctangent. -/
noncomputable def atan2R (y x : ℝ) : ℝ :=
  if 0 < x then Real.arctan (y / x)
  else if x < 0 then
    (if 0 ≤ y then Real.arctan (y / x) + Real.pi
     else Real.arctan (y / x) - Real.pi)
  else if 0 < y then Real.pi / 2
  else if y < 0 then -(Real.pi / 2)
  else 0

/-- The `f64` primitive bound to each unary function name
(`CALL_1_FNS` in graph.rs), idealized over `ℝ`. -/
noncomputable def Call1.app : Call1 → ℝ → ℝ
  | .Sin => Real.sin
  | .Cos => Real.cos
  | .Tan => Real.tan
  | .Asin => Real.arcsin
  | .Acos => Real.arccos
  | .Atan => Real.arctan
  | .Sinh => Real.sinh
  | .Cosh => Real.cosh
  | .Tanh => Real.tanh
  | .Asinh => Real.arsinh
  | .Acosh => arcoshR
  | .Atanh => artanhR
  | .Ln => Real.log
  | .Log2 => Real.logb 2
  | .Log10 => Real.logb 10
  | .Sqrt => Real.sqrt
  | .Cbrt => cbrtR
  | .Abs => fun x => |x|
  | .Sign => signR
  | .Floor => fun x => ((⌊x⌋ : ℤ) : ℝ)
  | .Ceil => fun x => ((⌈x⌉ : ℤ) : ℝ)
  | .Fract => fractR

/-- The `f64` primitive bound to each binary function name
(`CALL_2_FNS` in graph.rs), idealized over `ℝ`. -/
noncomputable def Call2.app : Call2 → ℝ → ℝ → ℝ
  | .Min => min
  | .Max => max
  | .Atan2 => atan2R

/-- The name → unary-function table `CALL_1_FN_MAP` of graph.rs. -/
def CALL_1_FN_MAP : List (String × Call1) :=
  [("sin", .Sin), ("cos", .Cos), ("tan", .Tan), ("asin", .Asin),
   ("acos", .Acos), ("atan", .Atan), ("sinh", .Sinh), ("cosh", .Cosh),
   ("tanh", .Tanh), ("asinh", .Asinh), ("acosh", .Acosh), ("atanh", .Atanh),
   ("ln", .Ln), ("log2", .Log2), ("log10", .Log10), ("sqrt", .Sqrt),
   ("cbrt", .Cbrt), ("abs", .Abs), ("sign", .Sign), ("floor", .Floor),
   ("ceil", .Ceil), ("fract", .Fract)]

/-- The name → binary-function table `CALL_2_FN_MAP` of graph.rs. -/
def CALL_2_FN_MAP : List (String × Call2) :=
  [("min", .Min), ("max", .Max), ("atan2", .Atan2)]

/-- The named-constant table `CONSTS` of graph.rs
(`std::f64::consts::TAU`, `PI`, `E`). -/
noncomputable def CONSTS : List (String × ℝ) :=
  [("tau", 2 * Real.pi), ("pi", Real.pi), ("e", Real.exp 1)]

/-- Lookup of a name in `CONSTS` (`CONSTS.get` in graph.rs). -/
noncomputable def constsLookup (name : String) : Option ℝ :=
  CONSTS.lookup name

/-- Whether a name is a registered constant (`CONSTS.contains_key`). -/
noncomputable def isConst (name : String) : Bool :=
  (constsLookup name).isSome

/-- The `Function` AST of graph.rs.  `Var none` is the free parameter `t`;
`Var (some i)` is the value of the `i`-th auxiliary assignment.  `Call2`
keeps its two operands as two fields rather than a boxed pair. -/
inductive Function where
  | Var : Option ℕ → Function
  | Const : ℝ → Function
  | Add : List (Function × OpType) → Function
  | Mul : List (Function × OpType) → Function
  | Exp : List Function → Function
  | Neg : Function → Function
  | Call1 : Call1 → Function → Function
  | Call2 : Call2 → Function → Function → Function

/-- The pest parse tree consumed by `Function::from_pair`, one constructor
per `Rule` handled there.  `add`/`mul` keep the first operand and then the
(operator-sign, operand) pairs that `chunks(2)` recovers in the Rust code;
`neg` records whether the matched text starts with a minus sign;
`constant` carries the already-parsed numeric value
(`str::parse::<f64>` cannot fail after lexing).  The grammar file
`function.pest` is not among the sources, so parse trees for concrete
input strings are modelled from the spec's grammar (spec section 4.1). -/
inductive PT where
  | expr : PT → PT
  | add : PT → List (String × PT) → PT
  | mul : PT → List (String × PT) → PT
  | neg : Bool → PT → PT
  | exp : PT → List PT → PT
  | call1 : String → PT → PT
  | call2 : String → PT → PT → PT
  | primary : PT → PT
  | primitive : PT → PT
  | var : String → PT
  | constant : ℝ → PT

/-- Compile-time errors: the `CustomError` messages produced by
`Function::from_pair` and `Assigns::from_pairs` (the span/position data of
`pest::error::Error` is not modeled), plus `panicked` for the `unwrap` on
an operator sign missing from the sign table (unreachable for
grammar-produced parse trees). -/
inductive Err where
  | unknownVar : String → Err
  | unknownFun1 : String → Err
  | unknownFun2 : String → Err
  | alreadyDefined : String → Err
  | assignToConst : String → Err
  | panicked : Err
  deriving DecidableEq

/-- The message text of each compile error, from the `format!` calls in
graph.rs. -/
def Err.message : Err → String
  | .unknownVar n => "unknown variable: " ++ n
  | .unknownFun1 n => "unknown unary function: " ++ n
  | .unknownFun2 n => "unknown binary function: " ++ n
  | .alreadyDefined n => "\x27" ++ n ++ "\x27 is already defined"
  | .assignToConst n => "cannot assign to constant \x27" ++ n ++ "\x27"
  | .panicked => "internal error"

/-- The variable resolver `VarIndexMap` (`FxHashMap<String, Option<usize>>`).
Modeled as an association list; keys are inserted at most once (the code
checks `contains_key` before every insert), so association-list lookup
agrees with hash-map lookup. -/
abbrev VarMap := List (String × Option ℕ)

/-- The sign table passed for `Rule::add` in `Function::from_pair`. -/
def ADD_SIGNS : List (String × OpType) :=
  [("+", .Normal), ("-", .Inverse)]

/-- The sign table passed for `Rule::mul` in `Function::from_pair`. -/
def MUL_SIGNS : List (String × OpType) :=
  [("*", .Normal), ("/", .Inverse), ("//", .Third), ("%", .Fourth)]

mutual

/-- `Function::from_pair` of graph.rs: structural recursion over the parse
tree building the `Function` AST.  The `add`/`mul` cases inline
`from_multi_op_sequence` (empty rest ⇒ return the first operand's tree
directly, no wrapper) and the `exp` case inlines `from_op_sequence`
likewise. -/
noncomputable def build : PT → VarMap → Except Err Function
  | .expr inner, m => build inner m
  | .add first rest, m =>
    match rest with
    | [] => build first m
    | _ :: _ => do
      let f0 ← build first m
      let fs ← buildOps ADD_SIGNS rest m
      pure (.Add ((f0, .Normal) :: fs))
  | .mul first rest, m =>
    match rest with
    | [] => build first m
    | _ :: _ => do
      let f0 ← build first m
      let fs ← buildOps MUL_SIGNS rest m
      pure (.Mul ((f0, .Normal) :: fs))
  | .neg negate inner, m => do
    let f ← build inner m
    pure (if negate then .Neg f else f)
  | .exp first rest, m =>
    match rest with
    | [] => build first m
    | _ :: _ => do
      let f0 ← build first m
      let fs ← buildExps rest m
      pure (.Exp (f0 :: fs))
  | .call1 name arg, m =>
    match CALL_1_FN_MAP.lookup name with
    | some c => do
      let f ← build arg m
      pure (.Call1 c f)
    | none => .error (.unknownFun1 name)
  | .call2 name arg1 arg2, m =>
    match CALL_2_FN_MAP.lookup name with
    | some c => do
      let f1 ← build arg1 m
      let f2 ← build arg2 m
      pure (.Call2 c f1 f2)
    | none => .error (.unknownFun2 name)
  | .primary inner, m => build inner m
  | .primitive inner, m => build inner m
  | .var name, m =>
    match constsLookup name with
    | some c => .ok (.Const c)
    | none =>
      match m.lookup name with
      | some idx => .ok (.Var idx)
      | none => .error (.unknownVar name)
  | .constant v, _ => .ok (.Const v)

/-- The per-chunk body of `from_multi_op_sequence`: build each operand,
then map its preceding operator sign through the sign table (`find_map`
followed by `unwrap`; a sign outside the table panics). -/
noncomputable def buildOps :
    List (String × OpType) → List (String × PT) → VarMap →
    Except Err (List (Function × OpType))
  | _, [], _ => .ok []
  | signs, (sgn, p) :: rest, m => do
    let f ← build p m
    match signs.find? (fun s => s.1 == sgn) with
    | some s => do
      let fs ← buildOps signs rest m
      pure ((f, s.2) :: fs)
    | none => .error .panicked

/-- The operand list of `from_op_sequence` (the `exp` rule): build each
remaining operand in order. -/
noncomputable def buildExps : List PT → VarMap → Except Err (List Function)
  | [], _ => .ok []
  | p :: rest, m => do
    let f ← build p m
    let fs ← buildExps rest m
    pure (f :: fs)

end

/-- The fold body of `<AssignVec as Assigns>::from_pairs`: process
`name = rhs` assignments left to right with running index `i`.  The target
name is checked against the resolver (duplicate) and the constant table,
then inserted with index `i` BEFORE its right-hand side is built. -/
noncomputable def fromPairsAux (pairs : List (String × PT)) (i : ℕ) (m : VarMap) :
    Except Err (List Function × VarMap) :=
  match pairs with
  | [] => .ok ([], m)
  | (name, rhs) :: rest =>
    if (m.lookup name).isSome then .error (.alreadyDefined name)
    else if isConst name then .error (.assignToConst name)
    else do
      let f ← build rhs ((name, some i) :: m)
      let (fs, m') ← fromPairsAux rest (i + 1) ((name, some i) :: m)
      pure (f :: fs, m')

/-- `<AssignVec as Assigns>::from_pairs`: the resolver is pre-seeded with
`t ↦ none` and the assignments are processed from index `0`. -/
noncomputable def fromPairs (pairs : List (String × PT)) :
    Except Err (List Function × VarMap) :=
  fromPairsAux pairs 0 [("t", none)]

/-- The compiled output `Parametric` of graph.rs (the retained source
strings are kept only for UI redisplay). -/
structure Parametric where
  x : Function
  y : Function
  assigns : List Function
  source_x : Option String := none
  source_y : Option String := none
  source_assigns : Option String := none

/-- Evaluation failure modes of the embedded evaluator: `fuel` models
unbounded recursion (the Rust `eval` has no guard and would overflow the
stack), `oob` models the panic of the unguarded `assigns[i]` index, and
`unreachableOp` the panic of the `unreachable` arm in the `Add` fold. -/
inductive EvalErr where
  | fuel
  | oob
  | unreachableOp
  deriving DecidableEq

/-- The `Add` fold step of `Function::eval`: `Normal` adds, `Inverse`
subtracts, and the remaining tags hit the `unreachable` panic (`none`
here; `Add` nodes built by the compiler only ever carry `Normal` or
`Inverse`). -/
def applyAdd (acc v : ℝ) : OpType → Option ℝ
  | .Normal => some (acc + v)
  | .Inverse => some (acc - v)
  | .Third => none
  | .Fourth => none

/-- The `Mul` fold step of `Function::eval`: multiply, divide, Euclidean
integer division, Euclidean remainder. -/
noncomputable def applyMul (acc v : ℝ) : OpType → ℝ
  | .Normal => acc * v
  | .Inverse => acc / v
  | .Third => divEuclidR acc v
  | .Fourth => remEuclidR acc v

/-- `Function::eval` of graph.rs, with fuel: each recursive call of the
Rust evaluator consumes one unit, so running out of fuel at every fuel
level models non-termination.  `Var (some i)` evaluates `assigns[i]`
recursively (out of bounds panics, modeled by `oob`); `Add`/`Mul` fold
left from `0`/`1`; `Exp` folds the bases right to left seeded with `1`,
computing `base ^ accumulator` (real `rpow`) at each step. -/
noncomputable def evalF (fuel : ℕ) (f : Function) (t : ℝ)
    (as : List Function) : Except EvalErr ℝ :=
  match fuel with
  | 0 => .error .fuel
  | fuel + 1 =>
    match f with
    | .Var none => .ok t
    | .Var (some i) =>
      match as.get? i with
      | some g => evalF fuel g t as
      | none => .error .oob
    | .Const c => .ok c
    | .Add fs => fs.foldlM (fun acc p => do
        let v ← evalF fuel p.1 t as
        match applyAdd acc v p.2 with
        | some r => pure r
        | none => .error .unreachableOp) 0
    | .Mul fs => fs.foldlM (fun acc p => do
        let v ← evalF fuel p.1 t as
        pure (applyMul acc v p.2)) 1
    | .Exp fs => fs.reverse.foldlM (fun acc g => do
        let v ← evalF fuel g t as
        pure (v ^ acc)) 1
    | .Neg g => do
      let v ← evalF fuel g t as
      pure (-v)
    | .Call1 c g => do
      let v ← evalF fuel g t as
      pure (c.app v)
    | .Call2 c g h => do
      let v1 ← evalF fuel g t as
      let v2 ← evalF fuel h t as
      pure (c.app v1 v2)
termination_by structural fuel

/-- Round a real to the nearest integer, ties to even (the IEEE-754
default rounding used by Rust's float casts). -/
noncomputable def rnE (y : ℝ) : ℤ :=
  if y - ⌊y⌋ < 1 / 2 then ⌊y⌋
  else if (1 : ℝ) / 2 < y - ⌊y⌋ then ⌊y⌋ + 1
  else if Even ⌊y⌋ then ⌊y⌋ else ⌊y⌋ + 1

/-- The `as f32` cast applied by `Parametric::eval` when it packs the two
`f64` results into a `Vec2` (a pair of `f32`): IEEE-754 binary32
round-to-nearest-even, with subnormals (exponent clamped at `-126`, so a
granularity of `2^(-149)`); overflow to infinity and NaN are not modeled
in this finite idealization. -/
noncomputable def f32round (x : ℝ) : ℝ :=
  if x = 0 then 0
  else
    ((rnE (x / 2 ^ (max (Int.log 2 |x|) (-126) - 23 : ℤ)) : ℤ) : ℝ) *
      2 ^ (max (Int.log 2 |x|) (-126) - 23 : ℤ)

/-- `Parametric::eval` of graph.rs: evaluate the `x` tree, then the `y`
tree, at the same `t` with the same assignment list, and narrow each
double-precision result to `f32` for the returned `Vec2`. -/
noncomputable def Parametric.eval (p : Parametric) (fuel : ℕ) (t : ℝ) :
    Except EvalErr (ℝ × ℝ) := do
  let xv ← evalF fuel p.x t p.assigns
  let yv ← evalF fuel p.y t p.assigns
  pure (f32round xv, f32round yv)

/-- The compilation pipeline of `send_functions` in graph.rs: build the
assignment list and resolver from the `where` clause, then build the `x`
and the `y` expression with the resulting resolver, and pack the three
into a `Parametric` (retained source strings omitted). -/
noncomputable def compile (wherePairs : List (String × PT)) (xpt ypt : PT) :
    Except Err Parametric := do
  let (as, m) ← fromPairs wherePairs
  let fx ← build xpt m
  let fy ← build ypt m
  pure { x := fx, y := fy, assigns := as }

/-! Basic reduction lemmas for the `Except` monad as used above. -/

@[simp] theorem ok_bind {E α β : Type} (a : α) (f : α → Except E β) :
    (Except.ok a >>= f) = f a := rfl

@[simp] theorem error_bind {E α β : Type} (e : E) (f : α → Except E β) :
    ((Except.error e : Except E α) >>= f) = Except.error e := rfl

@[simp] theorem pure_eq_ok {E α : Type} (a : α) :
    (pure a : Except E α) = Except.ok a := rfl

/-- C1 counterexample: the `where` clause `u = u` (a self-referencing
assignment) does NOT fail with an unknown-variable error — `u` is inserted
into the resolver with index 0 before its right-hand side is built, so the
right-hand side resolves `u` to its own index and compilation succeeds
with the self-referencing assignment list `[Var (some 0)]`. -/
theorem C1_selfref_compiles :
    fromPairs [("u", PT.var "u")] =
      .ok ([Function.Var (some 0)], [("u", some 0), ("t", none)]) := by
  simp [fromPairs, fromPairsAux, isConst, constsLookup, CONSTS,
    List.lookup, build]

/-- C1 amended: in a `where` clause, an assignment's target name IS
visible while its own right-hand side is built (the name is bound to its
index before the right-hand side is parsed), so a self-referencing
assignment such as `u = u` compiles — to a `Var` node pointing at its own
index — instead of failing with an unknown-variable error.  Stated for any
target name that is not a registered constant and not `t`. -/
theorem C1_selfref_visible (name : String)
    (h1 : constsLookup name = none) (h2 : name ≠ "t") :
    fromPairs [(name, PT.var name)] =
      .ok ([Function.Var (some 0)], [(name, some 0), ("t", none)]) := by
  have hb : (name == "t") = false := beq_eq_false_iff_ne.mpr h2
  simp [fromPairs, fromPairsAux, isConst, h1, hb, List.lookup, build]

/-- Witness for the amended C1 theorem at the concrete name `u`. -/
theorem C1_selfref_visible_witness :
    fromPairs [("u", PT.var "u")] =
      .ok ([Function.Var (some 0)], [("u", some 0), ("t", none)]) :=
  C1_selfref_visible "u" (by simp [constsLookup, CONSTS, List.lookup])
    (by decide)

/-- C5: a forward reference in a `where` clause fails with an
unknown-variable error: in `v = u` followed by `u = ...`, the name `u` is
not yet in the resolver when the right-hand side of `v` is built (only
`t` and earlier assignments are), so compilation stops with
`unknown variable: u`, whatever the later right-hand side is. -/
theorem C5_forward_reference_fails (rhs : PT) :
    fromPairs [("v", PT.var "u"), ("u", rhs)] =
      .error (.unknownVar "u") := by
  simp [fromPairs, fromPairsAux, isConst, constsLookup, CONSTS,
    List.lookup, build]

/-- C6: a duplicate assignment target fails with the
`'<name>' is already defined` error and an assignment to a registered
constant name fails with the `cannot assign to constant '<name>'` error,
with exactly those message texts; concretely `u = 1` followed by `u = 2`,
and `pi = 1` (any right-hand side). -/
theorem C6_duplicate_and_constant_errors (rhs : PT) :
    fromPairs [("u", PT.constant 1), ("u", PT.constant 2)] =
        .error (.alreadyDefined "u") ∧
      fromPairs [("pi", rhs)] = .error (.assignToConst "pi") ∧
      Err.message (.alreadyDefined "u") = "\x27u\x27 is already defined" ∧
      Err.message (.assignToConst "pi") =
        "cannot assign to constant \x27pi\x27" := by
  refine ⟨?_, ?_, rfl, rfl⟩
  · simp [fromPairs, fromPairsAux, isConst, constsLookup, CONSTS,
      List.lookup, build]
  · simp [fromPairs, fromPairsAux, isConst, constsLookup, CONSTS,
      List.lookup]

/-! Properties of the Euclidean division primitives. -/

theorem sub_truncR_lt_one (x : ℝ) : |x - truncR x| < 1 := by
  unfold truncR
  by_cases h : x < 0
  · rw [if_pos h, abs_lt]
    have h1 := Int.floor_le (-x)
    have h2 := Int.lt_floor_add_one (-x)
    constructor <;> push_cast at h1 h2 ⊢ <;> linarith
  · rw [if_neg h, abs_lt]
    have h1 := Int.floor_le x
    have h2 := Int.lt_floor_add_one x
    constructor <;> push_cast at h1 h2 ⊢ <;> linarith

theorem abs_fRemR_lt (a b : ℝ) (hb : b ≠ 0) : |fRemR a b| < |b| := by
  have hba : b * (a / b) = a := by field_simp
  have h : fRemR a b = b * (a / b - truncR (a / b)) := by
    rw [fRemR, mul_sub, hba]; ring
  rw [h, abs_mul]
  have h1 := sub_truncR_lt_one (a / b)
  have hb' : 0 < |b| := abs_pos.mpr hb
  calc |b| * |a / b - truncR (a / b)| < |b| * 1 :=
        mul_lt_mul_of_pos_left h1 hb'
    _ = |b| := mul_one _

theorem remEuclidR_nonneg (a b : ℝ) (hb : b ≠ 0) : 0 ≤ remEuclidR a b := by
  have hlt := abs_fRemR_lt a b hb
  rw [abs_lt] at hlt
  by_cases h : fRemR a b < 0
  · simp only [remEuclidR, if_pos h]; linarith [hlt.1]
  · simp only [remEuclidR, if_neg h]; exact not_lt.mp h

theorem remEuclidR_lt_abs (a b : ℝ) (hb : b ≠ 0) : remEuclidR a b < |b| := by
  have hlt := abs_fRemR_lt a b hb
  rw [abs_lt] at hlt
  by_cases h : fRemR a b < 0
  · simp only [remEuclidR, if_pos h]; linarith [abs_pos.mpr hb]
  · simp only [remEuclidR, if_neg h]; exact hlt.2

theorem divEuclid_add_remEuclid (a b : ℝ) (hb : b ≠ 0) :
    b * divEuclidR a b + remEuclidR a b = a := by
  unfold divEuclidR remEuclidR
  by_cases h : fRemR a b < 0
  · rw [if_pos h, if_pos h]
    rcases lt_or_gt_of_ne hb with hbneg | hbpos
    · rw [if_neg (not_lt.mpr hbneg.le), abs_of_neg hbneg]
      unfold fRemR; ring
    · rw [if_pos hbpos, abs_of_pos hbpos]
      unfold fRemR; ring
  · rw [if_neg h, if_neg h]
    unfold fRemR; ring

/-! Concrete values of the Euclidean primitives at `-7` and `2`. -/

theorem truncR_neg7_half : truncR ((-7 : ℝ) / 2) = -3 := by
  have hf : ⌊-((-7 : ℝ) / 2)⌋ = 3 := by
    rw [Int.floor_eq_iff] <;> norm_num
  rw [truncR, if_pos (by norm_num : ((-7 : ℝ) / 2) < 0), hf]
  norm_num

theorem fRemR_neg7_two : fRemR (-7) 2 = -1 := by
  rw [fRemR, truncR_neg7_half]; norm_num

theorem remEuclidR_neg7_two : remEuclidR (-7) 2 = 1 := by
  rw [remEuclidR, fRemR_neg7_two]
  norm_num

theorem divEuclidR_neg7_two : divEuclidR (-7) 2 = -4 := by
  rw [divEuclidR, fRemR_neg7_two, truncR_neg7_half]
  norm_num

/-- C2: an `Exp` chain evaluates by folding the bases right to left,
seeded with `1.0`, computing `base ^ accumulator` at each step, so
`a ^ b ^ c` evaluates to `a ^ (b ^ c)` (right-associative); and the parse
tree of `2 ^ 3 ^ 2` compiles to `Exp [2, 3, 2]` whose evaluation yields
`512.0` (which is `2 ^ (3 ^ 2)`), not `64.0`. -/
theorem C2_exp_right_assoc (fuel : ℕ) (a b c : Function) (t : ℝ)
    (as : List Function) (va vb vc : ℝ)
    (ha : evalF fuel a t as = .ok va)
    (hb : evalF fuel b t as = .ok vb)
    (hc : evalF fuel c t as = .ok vc) :
    evalF (fuel + 1) (.Exp [a, b, c]) t as = .ok (va ^ (vb ^ vc)) ∧
    build (PT.exp (.constant 2) [.constant 3, .constant 2]) [("t", none)] =
      .ok (.Exp [.Const 2, .Const 3, .Const 2]) ∧
    evalF 2 (.Exp [.Const 2, .Const 3, .Const 2]) 0 [] = .ok 512 ∧
    (512 : ℝ) ≠ 64 := by
  have e1 : ∀ x : ℝ, x ^ (1 : ℝ) = x := Real.rpow_one
  have e2 : (3 : ℝ) ^ (2 : ℝ) = 9 := by
    rw [show (2 : ℝ) = ((2 : ℕ) : ℝ) by norm_num, Real.rpow_natCast]
    norm_num
  have e3 : (2 : ℝ) ^ (9 : ℝ) = 512 := by
    rw [show (9 : ℝ) = ((9 : ℕ) : ℝ) by norm_num, Real.rpow_natCast]
    norm_num
  refine ⟨?_, ?_, ?_, by norm_num⟩
  · simp [evalF, List.foldlM_cons, List.foldlM_nil, ha, hb, hc, e1]
  · simp [build, buildExps]
  · simp [evalF, List.foldlM_cons, List.foldlM_nil, e1, e2, e3]

/-- Witness for C2 at `fuel = 1`, bases `2 ^ 2 ^ 2`, `t = 0`. -/
theorem C2_exp_right_assoc_witness :
    evalF 2 (.Exp [.Const 2, .Const 2, .Const 2]) 0 [] =
      .ok ((2 : ℝ) ^ ((2 : ℝ) ^ (2 : ℝ))) :=
  (C2_exp_right_assoc 1 (.Const 2) (.Const 2) (.Const 2) 0 [] 2 2 2
    (by simp [evalF]) (by simp [evalF]) (by simp [evalF])).1

/-- C3: the `Mul` fold applies Euclidean division and Euclidean remainder
for `//` and `%` — `remEuclidR`/`divEuclidR` satisfy the Euclidean
specification `a = b * q + r` with `0 ≤ r < |b|` for `b ≠ 0` (so they are
not the truncating variants) — and concretely the parse trees of
`-7 % 2` and `-7 // 2` compile to `Mul` chains tagged `Fourth`/`Third`
which evaluate (left fold seeded with `1.0`) to `1.0` and `-4.0`. -/
theorem C3_mul_euclidean (a b : ℝ) (hb : b ≠ 0) :
    (b * divEuclidR a b + remEuclidR a b = a ∧
      0 ≤ remEuclidR a b ∧ remEuclidR a b < |b|) ∧
    build (PT.mul (.neg true (.constant 7))
        [("%", .neg false (.constant 2))]) [("t", none)] =
      .ok (.Mul [(.Neg (.Const 7), .Normal), (.Const 2, .Fourth)]) ∧
    evalF 3 (.Mul [(.Neg (.Const 7), .Normal), (.Const 2, .Fourth)]) 0 []
      = .ok 1 ∧
    build (PT.mul (.neg true (.constant 7))
        [("//", .neg false (.constant 2))]) [("t", none)] =
      .ok (.Mul [(.Neg (.Const 7), .Normal), (.Const 2, .Third)]) ∧
    evalF 3 (.Mul [(.Neg (.Const 7), .Normal), (.Const 2, .Third)]) 0 []
      = .ok (-4) := by
  refine ⟨⟨divEuclid_add_remEuclid a b hb, remEuclidR_nonneg a b hb,
    remEuclidR_lt_abs a b hb⟩, ?_, ?_, ?_, ?_⟩
  · simp [build, buildOps, MUL_SIGNS]
  · simp [evalF, List.foldlM_cons, List.foldlM_nil, applyMul,
      remEuclidR_neg7_two]
  · simp [build, buildOps, MUL_SIGNS]
  · simp [evalF, List.foldlM_cons, List.foldlM_nil, applyMul,
      divEuclidR_neg7_two]

/-- Witness for C3 at `a = -7`, `b = 2`. -/
theorem C3_mul_euclidean_witness :
    2 * divEuclidR (-7) 2 + remEuclidR (-7) 2 = -7 ∧
      0 ≤ remEuclidR (-7) 2 ∧ remEuclidR (-7) 2 < |(2 : ℝ)| :=
  (C3_mul_euclidean (-7) 2 (by norm_num)).1

/-! Inversion of `Except` binds, and the structural invariants of the
AST builder: index bounds (for C10) and absence of singleton
combinators (for C9). -/

@[simp] theorem bind_ok_iff {E α β : Type} (x : Except E α)
    (g : α → Except E β) (b : β) :
    (x >>= g) = .ok b ↔ ∃ a, x = .ok a ∧ g a = .ok b := by
  cases x <;> simp

/-- All `some` indices a resolver maps to are below `n`. -/
def MapBelow (m : VarMap) (n : ℕ) : Prop :=
  ∀ name i, m.lookup name = some (some i) → i < n

theorem mapBelow_mono {m : VarMap} {n n' : ℕ} (h : MapBelow m n)
    (hle : n ≤ n') : MapBelow m n' :=
  fun name i hl => lt_of_lt_of_le (h name i hl) hle

/-- Every `Var (some i)` node of the tree has `i < n`. -/
inductive Refs (n : ℕ) : Function → Prop
  | var_t : Refs n (.Var none)
  | var : ∀ i, i < n → Refs n (.Var (some i))
  | const : ∀ c, Refs n (.Const c)
  | add : ∀ fs, (∀ p ∈ fs, Refs n p.1) → Refs n (.Add fs)
  | mul : ∀ fs, (∀ p ∈ fs, Refs n p.1) → Refs n (.Mul fs)
  | exp : ∀ fs, (∀ f ∈ fs, Refs n f) → Refs n (.Exp fs)
  | neg : ∀ f, Refs n f → Refs n (.Neg f)
  | call1 : ∀ c f, Refs n f → Refs n (.Call1 c f)
  | call2 : ∀ c f g, Refs n f → Refs n g → Refs n (.Call2 c f g)

theorem refs_mono {n n' : ℕ} (hle : n ≤ n') {f : Function}
    (h : Refs n f) : Refs n' f := by
  induction h with
  | var_t => exact .var_t
  | var i hi => exact .var i (lt_of_lt_of_le hi hle)
  | const c => exact .const c
  | add fs _ ih => exact .add fs ih
  | mul fs _ ih => exact .mul fs ih
  | exp fs _ ih => exact .exp fs ih
  | neg f _ ih => exact .neg f ih
  | call1 c f _ ih => exact .call1 c f ih
  | call2 c f g _ _ ihf ihg => exact .call2 c f g ihf ihg

/-- No singleton combinators: every `Add`, `Mul` and `Exp` node carries at
least two terms. -/
inductive NS : Function → Prop
  | var : ∀ o, NS (.Var o)
  | const : ∀ c, NS (.Const c)
  | add : ∀ fs, 2 ≤ fs.length → (∀ p ∈ fs, NS p.1) → NS (.Add fs)
  | mul : ∀ fs, 2 ≤ fs.length → (∀ p ∈ fs, NS p.1) → NS (.Mul fs)
  | exp : ∀ fs, 2 ≤ fs.length → (∀ f ∈ fs, NS f) → NS (.Exp fs)
  | neg : ∀ f, NS f → NS (.Neg f)
  | call1 : ∀ c f, NS f → NS (.Call1 c f)
  | call2 : ∀ c f g, NS f → NS g → NS (.Call2 c f g)

theorem lookup_some_key {β : Type} {l : List (String × β)} {a : String}
    {b : β} (h : l.lookup a = some b) : ∃ p, p ∈ l ∧ a = p.1 := by
  induction l with
  | nil => simp [List.lookup] at h
  | cons hd tl ih =>
    obtain ⟨k, v⟩ := hd
    simp only [List.lookup] at h
    cases hbeq : a == k with
    | true =>
      exact ⟨(k, v), List.mem_cons_self _ _, eq_of_beq hbeq⟩
    | false =>
      rw [hbeq] at h
      obtain ⟨p, hp, he⟩ := ih h
      exact ⟨p, List.mem_cons_of_mem _ hp, he⟩

theorem build_bound_all :
    (∀ pt m, ∀ n f, MapBelow m n → build pt m = .ok f → Refs n f) ∧
    (∀ l m, ∀ n fs, MapBelow m n → buildExps l m = .ok fs →
      ∀ f ∈ fs, Refs n f) ∧
    (∀ signs l m, ∀ n fs, MapBelow m n → buildOps signs l m = .ok fs →
      ∀ p ∈ fs, Refs n p.1) := by
  apply build.mutual_induct <;> intros <;> try simp_all [build, buildOps, buildExps]
  case case3 =>
    rename_i first m hd tl ihFirst n f ihOps hm hex
    obtain ⟨f0, hf0, f1, hf1, fs2, hfs2, heq⟩ := hex
    subst heq
    refine Refs.add _ ?_
    intro p hp
    rcases List.mem_cons.mp hp with rfl | hp'
    · exact ihFirst n f0 hm hf0
    · exact ihOps n fs2 hm f1 hf1 hfs2 p.1 p.2 hp'
  case case5 =>
    rename_i first m hd tl ihFirst n f ihOps hm hex
    obtain ⟨f0, hf0, f1, hf1, fs2, hfs2, heq⟩ := hex
    subst heq
    refine Refs.mul _ ?_
    intro p hp
    rcases List.mem_cons.mp hp with rfl | hp'
    · exact ihFirst n f0 hm hf0
    · exact ihOps n fs2 hm f1 hf1 hfs2 p.1 p.2 hp'
  case case6 =>
    rename_i negate inner m ih n f hm hex
    obtain ⟨g, hg, heq⟩ := hex
    subst heq
    have hr := ih n g hm hg
    cases negate
    · simpa using hr
    · simpa using Refs.neg g hr
  case case8 =>
    rename_i first m hd tl ihFirst n f ihExps hm hex
    obtain ⟨f0, hf0, f1, hf1, fs2, hfs2, heq⟩ := hex
    subst heq
    refine Refs.exp _ ?_
    intro g hg
    rcases List.mem_cons.mp hg with rfl | hg'
    · exact ihFirst n g hm hf0
    · exact ihExps n (f1 :: fs2) hm f1 hf1 fs2 hfs2 rfl g hg'
  case case9 =>
    rename_i name arg m c hfind ih n f hm hex
    obtain ⟨g, hg, heq⟩ := hex
    subst heq
    exact Refs.call1 c g (ih n g hm hg)
  case case10 =>
    rename_i name arg m n f hforall hm hok
    cases hl : CALL_1_FN_MAP.lookup name with
    | none => rw [hl] at hok; cases hok
    | some c =>
      obtain ⟨p, hp, he⟩ := lookup_some_key hl
      exact absurd he (hforall p.1 p.2 hp)
  case case11 =>
    rename_i name arg1 arg2 m c hfind ih1 ih2 n f hm hex
    obtain ⟨g1, hg1, g2, hg2, heq⟩ := hex
    subst heq
    exact Refs.call2 c g1 g2 (ih1 n g1 hm hg1) (ih2 n g2 hm hg2)
  case case12 =>
    rename_i name arg1 arg2 m n f hforall hm hok
    cases hl : CALL_2_FN_MAP.lookup name with
    | none => rw [hl] at hok; cases hok
    | some c =>
      obtain ⟨p, hp, he⟩ := lookup_some_key hl
      exact absurd he (hforall p.1 p.2 hp)
  case case15 =>
    rename_i name m c hconst n f hm heq
    subst heq
    exact Refs.const c
  case case16 =>
    rename_i name m hconst idx hl n f hm heq
    subst heq
    cases idx with
    | none => exact Refs.var_t
    | some i => exact Refs.var i (hm name i hl)
  case case17 =>
    rename_i name m hconst n f hforall hm hok
    cases hl : m.lookup name with
    | none => rw [hl] at hok; cases hok
    | some idx =>
      obtain ⟨p, hp, he⟩ := lookup_some_key hl
      exact absurd he (hforall p.1 p.2 hp)
  case case18 =>
    rename_i v m n f hm heq
    subst heq
    exact Refs.const v
  case case20 =>
    rename_i signs sgn pt rest m ihBuild n fs p ihRest hm hex hmem
    obtain ⟨g, hg, hmatch⟩ := hex
    cases hfind : List.find? (fun s => s.1 == sgn) signs with
    | none => rw [hfind] at hmatch; cases hmatch
    | some s =>
      rw [hfind] at hmatch
      simp only [bind_ok_iff, ok_bind, pure_eq_ok, Except.ok.injEq] at hmatch
      obtain ⟨fs', hops, heq⟩ := hmatch
      subst heq
      rcases List.mem_cons.mp hmem with rfl | hp'
      · exact ihBuild n g hm hg
      · exact ihRest n fs' hm hops p.1 p.2 hp'
  case case22 =>
    rename_i pt rest m ihBuild ihRest n fs hm g hex hmem
    obtain ⟨g0, hg0, fs', hfs', heq⟩ := hex
    subst heq
    rcases List.mem_cons.mp hmem with rfl | hg'
    · exact ihBuild n g hm hg0
    · exact ihRest n fs' hm hfs' g hg'

theorem build_ns_all :
    (∀ pt m, ∀ f, build pt m = .ok f → NS f) ∧
    (∀ l m, ∀ fs, buildExps l m = .ok fs → ∀ f ∈ fs, NS f) ∧
    (∀ signs l m, ∀ fs, buildOps signs l m = .ok fs → ∀ p ∈ fs, NS p.1) := by
  apply build.mutual_induct <;> intros <;> try simp_all [build, buildOps, buildExps]
  case case3 =>
    rename_i first m hd tl ihFirst f ihOps hex
    obtain ⟨f0, hf0, f1, hf1, fs2, hfs2, heq⟩ := hex
    subst heq
    have hall := ihOps fs2 f1 hf1 hfs2
    cases hfind : List.find? (fun s => s.1 == hd.1) ADD_SIGNS with
    | none => rw [hfind] at hfs2; cases hfs2
    | some s =>
      rw [hfind] at hfs2
      simp only [bind_ok_iff, pure_eq_ok, Except.ok.injEq] at hfs2
      obtain ⟨fs', hops, heq2⟩ := hfs2
      refine NS.add _ ?_ ?_
      · subst heq2; simp
      · intro p hp
        rcases List.mem_cons.mp hp with rfl | hp'
        · exact ihFirst f0 hf0
        · exact hall p.1 p.2 hp'
  case case5 =>
    rename_i first m hd tl ihFirst f ihOps hex
    obtain ⟨f0, hf0, f1, hf1, fs2, hfs2, heq⟩ := hex
    subst heq
    have hall := ihOps fs2 f1 hf1 hfs2
    cases hfind : List.find? (fun s => s.1 == hd.1) MUL_SIGNS with
    | none => rw [hfind] at hfs2; cases hfs2
    | some s =>
      rw [hfind] at hfs2
      simp only [bind_ok_iff, pure_eq_ok, Except.ok.injEq] at hfs2
      obtain ⟨fs', hops, heq2⟩ := hfs2
      refine NS.mul _ ?_ ?_
      · subst heq2; simp
      · intro p hp
        rcases List.mem_cons.mp hp with rfl | hp'
        · exact ihFirst f0 hf0
        · exact hall p.1 p.2 hp'
  case case6 =>
    rename_i negate inner m ih f hex
    obtain ⟨g, hg, heq⟩ := hex
    subst heq
    have hr := ih g hg
    cases negate
    · simpa using hr
    · simpa using NS.neg g hr
  case case8 =>
    rename_i first m hd tl ihFirst f ihExps hex
    obtain ⟨f0, hf0, f1, hf1, fs2, hfs2, heq⟩ := hex
    subst heq
    refine NS.exp _ (by simp) ?_
    intro g hg
    rcases List.mem_cons.mp hg with rfl | hg'
    · exact ihFirst g hf0
    · exact ihExps (f1 :: fs2) f1 hf1 fs2 hfs2 rfl g hg'
  case case9 =>
    rename_i name arg m c hfind ih f hex
    obtain ⟨g, hg, heq⟩ := hex
    subst heq
    exact NS.call1 c g (ih g hg)
  case case10 =>
    rename_i name arg m f hforall hok
    cases hl : CALL_1_FN_MAP.lookup name with
    | none => rw [hl] at hok; cases hok
    | some c =>
      obtain ⟨p, hp, he⟩ := lookup_some_key hl
      exact absurd he (hforall p.1 p.2 hp)
  case case11 =>
    rename_i name arg1 arg2 m c hfind ih1 ih2 f hex
    obtain ⟨g1, hg1, g2, hg2, heq⟩ := hex
    subst heq
    exact NS.call2 c g1 g2 (ih1 g1 hg1) (ih2 g2 hg2)
  case case12 =>
    rename_i name arg1 arg2 m f hforall hok
    cases hl : CALL_2_FN_MAP.lookup name with
    | none => rw [hl] at hok; cases hok
    | some c =>
      obtain ⟨p, hp, he⟩ := lookup_some_key hl
      exact absurd he (hforall p.1 p.2 hp)
  case case15 =>
    rename_i name m c hconst f heq
    subst heq
    exact NS.const c
  case case16 =>
    rename_i name m hconst idx hl f heq
    subst heq
    exact NS.var idx
  case case17 =>
    rename_i name m hconst f hforall hok
    cases hl : m.lookup name with
    | none => rw [hl] at hok; cases hok
    | some idx =>
      obtain ⟨p, hp, he⟩ := lookup_some_key hl
      exact absurd he (hforall p.1 p.2 hp)
  case case18 =>
    rename_i v m f heq
    subst heq
    exact NS.const v
  case case20 =>
    rename_i signs sgn pt rest m ihBuild fs p ihRest hex hmem
    obtain ⟨g, hg, hmatch⟩ := hex
    cases hfind : List.find? (fun s => s.1 == sgn) signs with
    | none => rw [hfind] at hmatch; cases hmatch
    | some s =>
      rw [hfind] at hmatch
      simp only [bind_ok_iff, ok_bind, pure_eq_ok, Except.ok.injEq] at hmatch
      obtain ⟨fs', hops, heq⟩ := hmatch
      subst heq
      rcases List.mem_cons.mp hmem with rfl | hp'
      · exact ihBuild g hg
      · exact ihRest fs' hops p.1 p.2 hp'
  case case22 =>
    rename_i pt rest m ihBuild ihRest fs g hex hmem
    obtain ⟨g0, hg0, fs', hfs', heq⟩ := hex
    subst heq
    rcases List.mem_cons.mp hmem with rfl | hg'
    · exact ihBuild g hg0
    · exact ihRest fs' hfs' g hg'

theorem fromPairsAux_bound (prs : List (String × PT)) :
    ∀ i m out, MapBelow m i → fromPairsAux prs i m = .ok out →
      out.1.length = prs.length ∧ MapBelow out.2 (i + prs.length) ∧
      ∀ j g, out.1.get? j = some g → Refs (i + j + 1) g := by
  induction prs with
  | nil =>
    intro i m out hm hok
    simp only [fromPairsAux] at hok
    injection hok with h
    subst h
    refine ⟨by simp, by simpa using hm, ?_⟩
    intro j g hg
    simp at hg
  | cons hd rest ih =>
    intro i m out hm hok
    obtain ⟨name, rhs⟩ := hd
    cases hdup : (m.lookup name).isSome with
    | true => simp [fromPairsAux, hdup] at hok
    | false =>
      cases hconst : isConst name with
      | true => simp [fromPairsAux, hdup, hconst] at hok
      | false =>
        simp only [fromPairsAux, hdup, hconst, Bool.false_eq_true,
          if_false, bind_ok_iff, pure_eq_ok, Except.ok.injEq] at hok
        obtain ⟨f0, hf0, ⟨fs, m'⟩, hrest, heq⟩ := hok
        subst heq
        have hm' : MapBelow ((name, some i) :: m) (i + 1) := by
          intro nm k hl
          simp only [List.lookup] at hl
          cases hbeq : nm == name with
          | true =>
            rw [hbeq] at hl
            injection hl with h1
            injection h1 with h2
            omega
          | false =>
            rw [hbeq] at hl
            exact lt_trans (hm nm k hl) (Nat.lt_succ_self i)
        have href : Refs (i + 1) f0 :=
          build_bound_all.1 rhs ((name, some i) :: m) (i + 1) f0 hm' hf0
        obtain ⟨hlen, hmb, hrefs⟩ :=
          ih (i + 1) ((name, some i) :: m) (fs, m') hm' hrest
        refine ⟨by simp [hlen], ?_, ?_⟩
        · have harith : i + 1 + rest.length = i + (rest.length + 1) := by
            omega
          simpa [harith, List.length_cons] using hmb
        · intro j g hg
          cases j with
          | zero =>
            simp at hg
            subst hg
            simpa using href
          | succ j =>
            simp at hg
            have h2 := hrefs j g (by simpa [List.get?_eq_getElem?] using hg)
            have harith : i + 1 + j + 1 = i + (j + 1) + 1 := by omega
            rwa [harith] at h2

theorem bind_ne_error {E α β : Type} (e0 : E) (x : Except E α)
    (g : α → Except E β) (hx : x ≠ .error e0)
    (hg : ∀ a, g a ≠ .error e0) : (x >>= g) ≠ .error e0 := by
  cases x with
  | error e => simpa using hx
  | ok a => simpa using hg a

theorem foldlM_ne_error {E α β : Type} (e0 : E) (l : List α)
    (s : β → α → Except E β)
    (h : ∀ acc a, a ∈ l → s acc a ≠ .error e0) :
    ∀ acc, l.foldlM s acc ≠ .error e0 := by
  induction l with
  | nil => intro acc; simp [List.foldlM_nil]
  | cons a l ih =>
    intro acc
    rw [List.foldlM_cons]
    refine bind_ne_error e0 _ _ (h acc a (List.mem_cons_self a l)) ?_
    intro b
    exact ih (fun acc' a' ha' => h acc' a' (List.mem_cons_of_mem _ ha')) b

/-- Evaluation of an index-bounded tree over an index-bounded assignment
list never takes the out-of-bounds (`assigns[i]` panic) path. -/
theorem evalF_no_oob (as : List Function)
    (has : ∀ g ∈ as, Refs as.length g) :
    ∀ fuel f t, Refs as.length f → evalF fuel f t as ≠ .error .oob := by
  intro fuel
  induction fuel with
  | zero => intro f t _; simp [evalF]
  | succ fuel ih =>
    intro f t hf
    cases hf with
    | var_t => simp [evalF]
    | var i hi =>
      obtain ⟨g, hg⟩ : ∃ g, as.get? i = some g := by
        rw [List.get?_eq_get hi]; exact ⟨_, rfl⟩
      have hgm : g ∈ as := List.get?_mem hg
      simp only [evalF, hg]
      exact ih g t (has g hgm)
    | const c => simp [evalF]
    | add fs hall =>
      simp only [evalF]
      apply foldlM_ne_error
      intro acc p hp
      refine bind_ne_error _ _ _ (ih p.1 t (hall p hp)) ?_
      intro v
      cases applyAdd acc v p.2 with
      | some r => simp
      | none =>
        intro hcon
        injection hcon with h2
        cases h2
    | mul fs hall =>
      simp only [evalF]
      apply foldlM_ne_error
      intro acc p hp
      refine bind_ne_error _ _ _ (ih p.1 t (hall p hp)) ?_
      intro v
      simp
    | exp fs hall =>
      simp only [evalF]
      apply foldlM_ne_error
      intro acc g hg
      refine bind_ne_error _ _ _
        (ih g t (hall g (List.mem_reverse.mp hg))) ?_
      intro v
      simp
    | neg g hg =>
      simp only [evalF]
      refine bind_ne_error _ _ _ (ih g t hg) ?_
      intro v
      simp
    | call1 c g hg =>
      simp only [evalF]
      refine bind_ne_error _ _ _ (ih g t hg) ?_
      intro v
      simp
    | call2 c g1 g2 hg1 hg2 =>
      simp only [evalF]
      refine bind_ne_error _ _ _ (ih g1 t hg1) ?_
      intro v1
      refine bind_ne_error _ _ _ (ih g2 t hg2) ?_
      intro v2
      simp

/-- C10: in every successfully compiled `Parametric`, every `Var (some i)`
in the `x` tree, the `y` tree and every assignment tree satisfies
`i < assigns.length`, so the unguarded `assigns[i]` index of `eval` is
always in bounds and evaluation never takes the out-of-bounds panic
path. -/
theorem C10_var_indices_in_bounds (wp : List (String × PT)) (xpt ypt : PT)
    (p : Parametric) (h : compile wp xpt ypt = .ok p) :
    Refs p.assigns.length p.x ∧ Refs p.assigns.length p.y ∧
    (∀ j g, p.assigns.get? j = some g → Refs p.assigns.length g) ∧
    ∀ fuel t, p.eval fuel t ≠ .error .oob := by
  simp only [compile, fromPairs, bind_ok_iff, pure_eq_ok,
    Except.ok.injEq] at h
  obtain ⟨⟨as, m⟩, hfp, fx, hfx, fy, hfy, heq⟩ := h
  subst heq
  have hm0 : MapBelow [("t", none)] 0 := by
    intro nm k hl
    simp only [List.lookup] at hl
    cases hbeq : nm == "t" with
    | true => rw [hbeq] at hl; cases hl
    | false => rw [hbeq] at hl; cases hl
  obtain ⟨hlen, hmb, hrefs⟩ := fromPairsAux_bound wp 0 [("t", none)]
    (as, m) hm0 hfp
  have hmb' : MapBelow m as.length := by
    have hlen' : as.length = wp.length := hlen
    have : (0 : ℕ) + wp.length = as.length := by omega
    rwa [this] at hmb
  have hx : Refs as.length fx := build_bound_all.1 xpt m as.length fx hmb' hfx
  have hy : Refs as.length fy := build_bound_all.1 ypt m as.length fy hmb' hfy
  have has : ∀ j g, as.get? j = some g → Refs as.length g := by
    intro j g hg
    have hj : j < as.length := by
      by_contra hcon
      rw [List.get?_eq_none.mpr (not_lt.mp hcon)] at hg
      cases hg
    have := hrefs j g hg
    refine refs_mono ?_ this
    omega
  refine ⟨hx, hy, has, ?_⟩
  intro fuel t
  have hmem : ∀ g ∈ as, Refs as.length g := by
    intro g hg
    obtain ⟨j, hj⟩ := List.get_of_mem hg
    exact has j g (by rw [List.get?_eq_get j.isLt]; exact congrArg some hj)
  simp only [Parametric.eval]
  refine bind_ne_error _ _ _ (evalF_no_oob as hmem fuel fx t hx) ?_
  intro v1
  refine bind_ne_error _ _ _ (evalF_no_oob as hmem fuel fy t hy) ?_
  intro v2
  simp

/-- Witness for C10 at the empty `where` clause and `x(t) = y(t) = t`. -/
theorem C10_var_indices_in_bounds_witness :
    Refs 0 (Function.Var none) := by
  have h := C10_var_indices_in_bounds [] (.var "t") (.var "t")
    { x := .Var none, y := .Var none, assigns := [] }
    (by simp [compile, fromPairs, fromPairsAux, build, List.lookup,
      constsLookup, CONSTS])
  exact h.1

/-- C9: the AST builder never emits a singleton combinator: a
single-element `add`, `mul` or `exp` parse-tree sequence builds to the
inner expression directly, and in every tree it emits (from an expression
or from a `where` clause) every `Add`, `Mul` and `Exp` node carries at
least two terms. -/
theorem C9_no_singleton_combinators (pt : PT) (m : VarMap)
    (prs : List (String × PT)) :
    build (.add pt []) m = build pt m ∧
    build (.mul pt []) m = build pt m ∧
    build (.exp pt []) m = build pt m ∧
    (∀ f, build pt m = .ok f → NS f) ∧
    (∀ out, fromPairs prs = .ok out → ∀ g ∈ out.1, NS g) := by
  refine ⟨by simp [build], by simp [build], by simp [build],
    fun f hf => build_ns_all.1 pt m f hf, ?_⟩
  have haux : ∀ (l : List (String × PT)) i m', ∀ out,
      fromPairsAux l i m' = .ok out → ∀ g ∈ out.1, NS g := by
    intro l
    induction l with
    | nil =>
      intro i m' out hok g hg
      simp only [fromPairsAux] at hok
      injection hok with h
      subst h
      simp at hg
    | cons hd rest ih =>
      intro i m' out hok g hg
      obtain ⟨name, rhs⟩ := hd
      cases hdup : (m'.lookup name).isSome with
      | true => simp [fromPairsAux, hdup] at hok
      | false =>
        cases hconst : isConst name with
        | true => simp [fromPairsAux, hdup, hconst] at hok
        | false =>
          simp only [fromPairsAux, hdup, hconst, Bool.false_eq_true,
            if_false, bind_ok_iff, pure_eq_ok, Except.ok.injEq] at hok
          obtain ⟨f0, hf0, ⟨fs, m''⟩, hrest, heq⟩ := hok
          subst heq
          rcases List.mem_cons.mp hg with rfl | hg'
          · exact build_ns_all.1 rhs _ g hf0
          · exact ih (i + 1) _ (fs, m'') hrest g hg'
  intro out hok
  exact haux prs 0 [("t", none)] out hok

/-- Witness for C9: the tree built from the parse tree of the plain
expression `t` is singleton-free. -/
theorem C9_no_singleton_combinators_witness : NS (Function.Var none) :=
  (C9_no_singleton_combinators (.var "t") [("t", none)] []).2.2.2.1
    (.Var none) (by simp [build, List.lookup, constsLookup, CONSTS])

/-! Concrete values of the binary32 rounding function. -/

theorem int_log_eq_zero {x : ℝ} (h1 : 1 ≤ x) (h2 : x < 2) :
    Int.log 2 x = 0 := by
  have hpos : (0 : ℝ) < x := lt_of_lt_of_le one_pos h1
  have hlow : 0 ≤ Int.log 2 x := by
    have h := Int.log_mono_right (b := 2) (one_pos) h1
    rwa [Int.log_one_right] at h
  have hhigh : Int.log 2 x < 1 := by
    by_contra hcon
    push_neg at hcon
    have h3 : (2 : ℝ) ^ (1 : ℤ) ≤ (2 : ℝ) ^ (Int.log 2 x) :=
      zpow_le_zpow_right₀ (by norm_num) hcon
    have h4 := Int.zpow_log_le_self (b := 2) (R := ℝ) (by norm_num) hpos
    have : (2 : ℝ) ≤ x := by
      calc (2 : ℝ) = (2 : ℝ) ^ (1 : ℤ) := by norm_num
        _ ≤ (2 : ℝ) ^ (Int.log 2 x) := h3
        _ ≤ x := h4
    linarith
  omega

theorem rnE_intCast (k : ℤ) : rnE (k : ℝ) = k := by
  simp [rnE, Int.floor_intCast]

theorem rnE_8388608_eps : rnE ((8388608 : ℝ) + 1 / 128) = 8388608 := by
  have hf : ⌊(8388608 : ℝ) + 1 / 128⌋ = 8388608 := by
    rw [Int.floor_eq_iff] <;> norm_num
  unfold rnE
  rw [hf]
  norm_num

/-- The value `1 + 2^(-30)` is exactly representable in `f64` but not in
`f32`: the cast rounds it to `1`. -/
theorem f32round_lossy : f32round (1 + 1 / 1073741824 : ℝ) = 1 := by
  have hx : (1 + 1 / 1073741824 : ℝ) ≠ 0 := by norm_num
  have habs : |(1 + 1 / 1073741824 : ℝ)| = 1 + 1 / 1073741824 :=
    abs_of_pos (by norm_num)
  have hlog : Int.log 2 (1 + 1 / 1073741824 : ℝ) = 0 :=
    int_log_eq_zero (by norm_num) (by norm_num)
  unfold f32round
  rw [if_neg hx, habs, hlog]
  have hmax : (max (0 : ℤ) (-126)) - 23 = -23 := by norm_num
  rw [hmax]
  have harg : ((1 : ℝ) + 1 / 1073741824) / (2 : ℝ) ^ (-23 : ℤ) =
      8388608 + 1 / 128 := by norm_num
  rw [harg, rnE_8388608_eps]
  norm_num

theorem f32round_half : f32round ((1 : ℝ) / 2) = 1 / 2 := by
  have hlog : Int.log 2 |(1 : ℝ) / 2| = -1 := by
    rw [abs_of_pos (by norm_num)]
    have h := Int.log_zpow (R := ℝ) (b := 2) one_lt_two (-1)
    simpa using h
  unfold f32round
  rw [if_neg (by norm_num), hlog]
  have hmax : (max (-1) (-126) : ℤ) - 23 = -24 := by norm_num
  rw [hmax]
  have harg : ((1 : ℝ) / 2) / (2 : ℝ) ^ (-24 : ℤ) = ((8388608 : ℤ) : ℝ) := by
    norm_num
  rw [harg, rnE_intCast]
  norm_num

theorem f32round_zero : f32round 0 = 0 := by simp [f32round]

theorem f32round_lossy_inv : f32round (1 + (1073741824 : ℝ)⁻¹) = 1 := by
  simpa [one_div] using f32round_lossy

theorem f32round_half_inv : f32round ((2 : ℝ)⁻¹) = 2⁻¹ := by
  simpa [one_div] using f32round_half

/-- The compiled identity curve: `x(t) = t`, `y(t) = t`, empty `where`
clause (what `compile [] (.var "t") (.var "t")` produces). -/
def idParametric : Parametric :=
  ⟨.Var none, .Var none, [], none, none, none⟩

/-- C4 counterexample: `Parametric::eval` does NOT return the full-`f64`
pair of results of the `x` and `y` trees: at the compiled identity curve
(`x = y = t`, no assignments) and `t = 1 + 2^(-30)` (exactly representable
in `f64`), both tree evaluations yield `1 + 2^(-30)` but `Parametric::eval`
returns `(1, 1)` because it narrows each component to `f32` when packing
the `Vec2`. -/
theorem C4_narrowing_counterexample :
    Parametric.eval idParametric 1 (1 + 1 / 1073741824) = .ok (1, 1) ∧
    ((1 : ℝ), (1 : ℝ)) ≠
      ((1 : ℝ) + 1 / 1073741824, (1 : ℝ) + 1 / 1073741824) := by
  constructor
  · simp [idParametric, Parametric.eval, evalF, f32round_lossy,
      f32round_lossy_inv]
  · intro hcon
    have h1 := congrArg Prod.fst hcon
    norm_num at h1

/-- C4 amended: for every compiled `Parametric` and every `t`, when the
`x` and `y` trees evaluate (with enough fuel) to `f64` values `x` and `y`,
`Parametric::eval` returns the pair of their `f32`-narrowed values
(IEEE-754 binary32 round-to-nearest-even), not the full `f64` values: the
narrowing is strict, e.g. it sends `1 + 2^(-30)` to `1`. -/
theorem C4_narrowing (p : Parametric) (fuel : ℕ) (t x y : ℝ)
    (hx : evalF fuel p.x t p.assigns = .ok x)
    (hy : evalF fuel p.y t p.assigns = .ok y) :
    p.eval fuel t = .ok (f32round x, f32round y) ∧
    f32round (1 + 1 / 1073741824 : ℝ) = 1 :=
  ⟨by simp [Parametric.eval, hx, hy], f32round_lossy⟩

/-- Witness for the amended C4 at the identity curve and `t = 0`. -/
theorem C4_narrowing_witness :
    Parametric.eval idParametric 1 0 = .ok (f32round 0, f32round 0) :=
  (C4_narrowing idParametric 1 0 0 0 (by simp [idParametric, evalF])
    (by simp [idParametric, evalF])).1

/-- C8: compiling the sources `t`, `t` with an empty `where` clause
succeeds, and evaluating the resulting `Parametric` at `t = 0.5` yields
exactly `(0.5, 0.5)` (the value `0.5` is exactly representable in `f32`,
so the narrowing is the identity here). -/
theorem C8_round_trip :
    compile [] (.var "t") (.var "t") = .ok idParametric ∧
    Parametric.eval idParametric 1 (1 / 2) = .ok (1 / 2, 1 / 2) := by
  constructor
  · simp [compile, fromPairs, fromPairsAux, build, List.lookup,
      constsLookup, CONSTS, idParametric]
  · simp [idParametric, Parametric.eval, evalF, f32round_half,
      f32round_half_inv]

/-! Fuel monotonicity of the evaluator: once evaluation completes within
some fuel bound (with any outcome other than running out of fuel), more
fuel does not change the outcome. -/

theorem foldlM_congr_ne {E α β : Type} (e0 : E) (l : List α)
    (s s' : β → α → Except E β)
    (h : ∀ acc a, a ∈ l → s acc a ≠ .error e0 → s' acc a = s acc a) :
    ∀ acc, l.foldlM s acc ≠ .error e0 →
      l.foldlM s' acc = l.foldlM s acc := by
  induction l with
  | nil => intro acc _; simp [List.foldlM_nil]
  | cons a l ih =>
    intro acc hfold
    rw [List.foldlM_cons] at hfold ⊢
    rw [List.foldlM_cons]
    cases hs : s acc a with
    | error e =>
      have hnee : e ≠ e0 := by
        intro hcon
        rw [hs, hcon] at hfold
        simp at hfold
      have hstep : s' acc a = s acc a :=
        h acc a (List.mem_cons_self a l) (by
          rw [hs]
          intro hcon
          injection hcon with h2
          exact hnee h2)
      rw [hstep, hs]
      simp
    | ok b =>
      have hstep : s' acc a = s acc a :=
        h acc a (List.mem_cons_self a l) (by rw [hs]; simp)
      rw [hstep, hs]
      rw [hs] at hfold
      simp only [ok_bind] at hfold ⊢
      exact ih (fun acc' a' ha' => h acc' a' (List.mem_cons_of_mem _ ha'))
        b hfold

/-! Single-step unfolding equations for `evalF` at positive fuel. -/

theorem evalF_zero (f : Function) (t : ℝ) (as : List Function) :
    evalF 0 f t as = .error .fuel := rfl

theorem evalF_var_t (fuel : ℕ) (t : ℝ) (as : List Function) :
    evalF (fuel + 1) (.Var none) t as = .ok t := rfl

theorem evalF_var_some (fuel i : ℕ) (t : ℝ) (as : List Function)
    (g : Function) (hg : as.get? i = some g) :
    evalF (fuel + 1) (.Var (some i)) t as = evalF fuel g t as := by
  show (match as.get? i with
    | some g => evalF fuel g t as
    | none => Except.error EvalErr.oob) = evalF fuel g t as
  rw [hg]

theorem evalF_var_oob (fuel i : ℕ) (t : ℝ) (as : List Function)
    (hg : as.get? i = none) :
    evalF (fuel + 1) (.Var (some i)) t as = .error .oob := by
  show (match as.get? i with
    | some g => evalF fuel g t as
    | none => Except.error EvalErr.oob) = .error .oob
  rw [hg]

theorem evalF_const (fuel : ℕ) (c t : ℝ) (as : List Function) :
    evalF (fuel + 1) (.Const c) t as = .ok c := rfl

theorem evalF_add (fuel : ℕ) (fs : List (Function × OpType)) (t : ℝ)
    (as : List Function) :
    evalF (fuel + 1) (.Add fs) t as = fs.foldlM (fun acc p => do
      let v ← evalF fuel p.1 t as
      match applyAdd acc v p.2 with
      | some r => pure r
      | none => .error .unreachableOp) 0 := rfl

theorem evalF_mul (fuel : ℕ) (fs : List (Function × OpType)) (t : ℝ)
    (as : List Function) :
    evalF (fuel + 1) (.Mul fs) t as = fs.foldlM (fun acc p => do
      let v ← evalF fuel p.1 t as
      pure (applyMul acc v p.2)) 1 := rfl

theorem evalF_exp (fuel : ℕ) (fs : List Function) (t : ℝ)
    (as : List Function) :
    evalF (fuel + 1) (.Exp fs) t as = fs.reverse.foldlM (fun acc g => do
      let v ← evalF fuel g t as
      pure (v ^ acc)) 1 := rfl

theorem evalF_neg (fuel : ℕ) (g : Function) (t : ℝ) (as : List Function) :
    evalF (fuel + 1) (.Neg g) t as = (do
      let v ← evalF fuel g t as
      pure (-v)) := rfl

theorem evalF_call1 (fuel : ℕ) (c : Call1) (g : Function) (t : ℝ)
    (as : List Function) :
    evalF (fuel + 1) (.Call1 c g) t as = (do
      let v ← evalF fuel g t as
      pure (c.app v)) := rfl

theorem evalF_call2 (fuel : ℕ) (c : Call2) (g1 g2 : Function) (t : ℝ)
    (as : List Function) :
    evalF (fuel + 1) (.Call2 c g1 g2) t as = (do
      let v1 ← evalF fuel g1 t as
      let v2 ← evalF fuel g2 t as
      pure (c.app v1 v2)) := rfl

theorem evalF_mono :
    ∀ fuel f t as, evalF fuel f t as ≠ .error .fuel →
      evalF (fuel + 1) f t as = evalF fuel f t as := by
  intro fuel
  induction fuel with
  | zero => intro f t as h; simp [evalF_zero] at h
  | succ fuel ih =>
    intro f t as h
    cases f with
    | Var o =>
      cases o with
      | none => rfl
      | some i =>
        cases hg : as.get? i with
        | none =>
          rw [evalF_var_oob (fuel + 1) i t as hg, evalF_var_oob fuel i t as hg]
        | some g =>
          rw [evalF_var_some (fuel + 1) i t as g hg,
            evalF_var_some fuel i t as g hg]
          rw [evalF_var_some fuel i t as g hg] at h
          exact ih g t as h
    | Const c => rfl
    | Add fs =>
      rw [evalF_add fuel] at h
      rw [evalF_add (fuel + 1), evalF_add fuel]
      refine foldlM_congr_ne _ fs _ _ ?_ 0 h
      intro acc p _ hne
      have hch : evalF fuel p.1 t as ≠ .error .fuel := by
        intro hcon
        exact hne (by simp [hcon])
      rw [ih p.1 t as hch]
    | Mul fs =>
      rw [evalF_mul fuel] at h
      rw [evalF_mul (fuel + 1), evalF_mul fuel]
      refine foldlM_congr_ne _ fs _ _ ?_ 1 h
      intro acc p _ hne
      have hch : evalF fuel p.1 t as ≠ .error .fuel := by
        intro hcon
        exact hne (by simp [hcon])
      rw [ih p.1 t as hch]
    | Exp fs =>
      rw [evalF_exp fuel] at h
      rw [evalF_exp (fuel + 1), evalF_exp fuel]
      refine foldlM_congr_ne _ fs.reverse _ _ ?_ 1 h
      intro acc g _ hne
      have hch : evalF fuel g t as ≠ .error .fuel := by
        intro hcon
        exact hne (by simp [hcon])
      rw [ih g t as hch]
    | Neg g =>
      rw [evalF_neg fuel] at h
      rw [evalF_neg (fuel + 1), evalF_neg fuel]
      have hch : evalF fuel g t as ≠ .error .fuel := by
        intro hcon
        exact h (by simp [hcon])
      rw [ih g t as hch]
    | Call1 c g =>
      rw [evalF_call1 fuel] at h
      rw [evalF_call1 (fuel + 1), evalF_call1 fuel]
      have hch : evalF fuel g t as ≠ .error .fuel := by
        intro hcon
        exact h (by simp [hcon])
      rw [ih g t as hch]
    | Call2 c g1 g2 =>
      rw [evalF_call2 fuel] at h
      rw [evalF_call2 (fuel + 1), evalF_call2 fuel]
      have h1 : evalF fuel g1 t as ≠ .error .fuel := by
        intro hcon
        exact h (by simp [hcon])
      rw [ih g1 t as h1]
      cases he : evalF fuel g1 t as with
      | error e => simp [he]
      | ok v1 =>
        rw [he] at h
        simp only [ok_bind] at h ⊢
        have h2 : evalF fuel g2 t as ≠ .error .fuel := by
          intro hcon
          exact h (by simp [hcon])
        rw [ih g2 t as h2]

theorem evalF_ge {fuel fuel' : ℕ} (hle : fuel ≤ fuel') (f : Function)
    (t : ℝ) (as : List Function)
    (h : evalF fuel f t as ≠ .error .fuel) :
    evalF fuel' f t as = evalF fuel f t as := by
  induction hle with
  | refl => rfl
  | step hle2 ih =>
    rename_i m
    rw [evalF_mono m f t as (by rw [ih]; exact h), ih]

/-- C7 counterexample: the `where` clause `u = u` compiles successfully
(see also C1), and evaluating the resulting self-referencing compiled AST
`Var (some 0)` over the assignment list `[Var (some 0)]` never terminates:
no amount of fuel makes the evaluation produce a value — the Rust `eval`
recurses unboundedly (stack exhaustion) on it. -/
theorem C7_selfref_divergence :
    fromPairs [("u", PT.var "u")] =
      .ok ([Function.Var (some 0)], [("u", some 0), ("t", none)]) ∧
    ¬ ∃ fuel v,
        evalF fuel (.Var (some 0)) 0 [Function.Var (some 0)] = .ok v := by
  have hdiv : ∀ fuel,
      evalF fuel (.Var (some 0)) 0 [Function.Var (some 0)] =
        .error .fuel := by
    intro fuel
    induction fuel with
    | zero => simp [evalF]
    | succ n ih => simpa [evalF] using ih
  constructor
  · simp [fromPairs, fromPairsAux, isConst, constsLookup, CONSTS,
      List.lookup, build]
  · rintro ⟨fuel, v, hv⟩
    rw [hdiv fuel] at hv
    cases hv

/-- Combined well-formedness used by the termination proof: every `Var`
index is below `n`, and every `Add` node carries only `Normal`/`Inverse`
operator tags (as the builder guarantees, so evaluation never reaches the
`unreachable` arm of the `Add` fold). -/
inductive WFT (n : ℕ) : Function → Prop
  | var_t : WFT n (.Var none)
  | var : ∀ i, i < n → WFT n (.Var (some i))
  | const : ∀ c, WFT n (.Const c)
  | add : ∀ fs, (∀ p ∈ fs, WFT n p.1) →
      (∀ p ∈ fs, p.2 = OpType.Normal ∨ p.2 = OpType.Inverse) →
      WFT n (.Add fs)
  | mul : ∀ fs, (∀ p ∈ fs, WFT n p.1) → WFT n (.Mul fs)
  | exp : ∀ fs, (∀ f ∈ fs, WFT n f) → WFT n (.Exp fs)
  | neg : ∀ f, WFT n f → WFT n (.Neg f)
  | call1 : ∀ c f, WFT n f → WFT n (.Call1 c f)
  | call2 : ∀ c f g, WFT n f → WFT n g → WFT n (.Call2 c f g)

/-- Tightening the index bound of a `WFT` tree to any bound its `Var`
indices actually satisfy. -/
theorem WFT.of_refs {j : ℕ} : ∀ {n f}, WFT n f → Refs j f → WFT j f := by
  intro n f hw
  induction hw with
  | var_t => intro _; exact .var_t
  | var i hi =>
    intro hr
    cases hr with
    | var _ hij => exact .var i hij
  | const c => intro _; exact .const c
  | add fs hall hops ih =>
    intro hr
    cases hr with
    | add _ hrall => exact .add fs (fun p hp => ih p hp (hrall p hp)) hops
  | mul fs hall ih =>
    intro hr
    cases hr with
    | mul _ hrall => exact .mul fs (fun p hp => ih p hp (hrall p hp))
  | exp fs hall ih =>
    intro hr
    cases hr with
    | exp _ hrall => exact .exp fs (fun g hg => ih g hg (hrall g hg))
  | neg f hf ih =>
    intro hr
    cases hr with
    | neg _ hrf => exact .neg f (ih hrf)
  | call1 c f hf ih =>
    intro hr
    cases hr with
    | call1 _ _ hrf => exact .call1 c f (ih hrf)
  | call2 c f g hf hg ihf ihg =>
    intro hr
    cases hr with
    | call2 _ _ _ hrf hrg => exact .call2 c f g (ihf hrf) (ihg hrg)

theorem build_wft_all :
    (∀ pt m, ∀ n f, MapBelow m n → build pt m = .ok f → WFT n f) ∧
    (∀ l m, ∀ n fs, MapBelow m n → buildExps l m = .ok fs →
      ∀ f ∈ fs, WFT n f) ∧
    (∀ signs l m, ∀ n fs, MapBelow m n → buildOps signs l m = .ok fs →
      ∀ p ∈ fs, WFT n p.1 ∧ ∃ s, s ∈ signs ∧ p.2 = s.2) := by
  apply build.mutual_induct <;> intros <;> try simp_all [build, buildOps, buildExps]
  case case3 =>
    rename_i first m hd tl ihFirst n f ihOps hm hex
    obtain ⟨f0, hf0, f1, hf1, fs2, hfs2, heq⟩ := hex
    subst heq
    refine WFT.add _ ?_ ?_
    · intro p hp
      rcases List.mem_cons.mp hp with rfl | hp'
      · exact ihFirst n f0 hm hf0
      · exact (ihOps n fs2 hm f1 hf1 hfs2 p.1 p.2 hp').1
    · intro p hp
      rcases List.mem_cons.mp hp with rfl | hp'
      · exact Or.inl rfl
      · obtain ⟨a, hamem⟩ := (ihOps n fs2 hm f1 hf1 hfs2 p.1 p.2 hp').2
        simp only [ADD_SIGNS, List.mem_cons, List.mem_singleton,
          Prod.mk.injEq, List.not_mem_nil, or_false] at hamem
        rcases hamem with ⟨_, h2⟩ | ⟨_, h2⟩
        · exact Or.inl h2
        · exact Or.inr h2
  case case5 =>
    rename_i first m hd tl ihFirst n f ihOps hm hex
    obtain ⟨f0, hf0, f1, hf1, fs2, hfs2, heq⟩ := hex
    subst heq
    refine WFT.mul _ ?_
    intro p hp
    rcases List.mem_cons.mp hp with rfl | hp'
    · exact ihFirst n f0 hm hf0
    · exact (ihOps n fs2 hm f1 hf1 hfs2 p.1 p.2 hp').1
  case case6 =>
    rename_i negate inner m ih n f hm hex
    obtain ⟨g, hg, heq⟩ := hex
    subst heq
    have hr := ih n g hm hg
    cases negate
    · simpa using hr
    · simpa using WFT.neg g hr
  case case8 =>
    rename_i first m hd tl ihFirst n f ihExps hm hex
    obtain ⟨f0, hf0, f1, hf1, fs2, hfs2, heq⟩ := hex
    subst heq
    refine WFT.exp _ ?_
    intro g hg
    rcases List.mem_cons.mp hg with rfl | hg'
    · exact ihFirst n g hm hf0
    · exact ihExps n (f1 :: fs2) hm f1 hf1 fs2 hfs2 rfl g hg'
  case case9 =>
    rename_i name arg m c hfind ih n f hm hex
    obtain ⟨g, hg, heq⟩ := hex
    subst heq
    exact WFT.call1 c g (ih n g hm hg)
  case case10 =>
    rename_i name arg m n f hforall hm hok
    cases hl : CALL_1_FN_MAP.lookup name with
    | none => rw [hl] at hok; cases hok
    | some c =>
      obtain ⟨p, hp, he⟩ := lookup_some_key hl
      exact absurd he (hforall p.1 p.2 hp)
  case case11 =>
    rename_i name arg1 arg2 m c hfind ih1 ih2 n f hm hex
    obtain ⟨g1, hg1, g2, hg2, heq⟩ := hex
    subst heq
    exact WFT.call2 c g1 g2 (ih1 n g1 hm hg1) (ih2 n g2 hm hg2)
  case case12 =>
    rename_i name arg1 arg2 m n f hforall hm hok
    cases hl : CALL_2_FN_MAP.lookup name with
    | none => rw [hl] at hok; cases hok
    | some c =>
      obtain ⟨p, hp, he⟩ := lookup_some_key hl
      exact absurd he (hforall p.1 p.2 hp)
  case case15 =>
    rename_i name m c hconst n f hm heq
    subst heq
    exact WFT.const c
  case case16 =>
    rename_i name m hconst idx hl n f hm heq
    subst heq
    cases idx with
    | none => exact WFT.var_t
    | some i => exact WFT.var i (hm name i hl)
  case case17 =>
    rename_i name m hconst n f hforall hm hok
    cases hl : m.lookup name with
    | none => rw [hl] at hok; cases hok
    | some idx =>
      obtain ⟨p, hp, he⟩ := lookup_some_key hl
      exact absurd he (hforall p.1 p.2 hp)
  case case18 =>
    rename_i v m n f hm heq
    subst heq
    exact WFT.const v
  case case20 =>
    rename_i signs sgn pt rest m ihBuild n fs p ihRest hm hex hmem
    obtain ⟨g, hg, hmatch⟩ := hex
    cases hfind : List.find? (fun s => s.1 == sgn) signs with
    | none => rw [hfind] at hmatch; cases hmatch
    | some s =>
      rw [hfind] at hmatch
      simp only [bind_ok_iff, ok_bind, pure_eq_ok, Except.ok.injEq] at hmatch
      obtain ⟨fs', hops, heq⟩ := hmatch
      subst heq
      rcases List.mem_cons.mp hmem with rfl | hp'
      · exact ⟨ihBuild n g hm hg, s.1, List.mem_of_find?_eq_some hfind⟩
      · exact ihRest n fs' hm hops p.1 p.2 hp'
  case case22 =>
    rename_i pt rest m ihBuild ihRest n fs hm g hex hmem
    obtain ⟨g0, hg0, fs', hfs', heq⟩ := hex
    subst heq
    rcases List.mem_cons.mp hmem with rfl | hg'
    · exact ihBuild n g hm hg0
    · exact ihRest n fs' hm hfs' g hg'

theorem fromPairsAux_wft (prs : List (String × PT)) :
    ∀ i m out, MapBelow m i → fromPairsAux prs i m = .ok out →
      ∀ j g, out.1.get? j = some g → WFT (i + j + 1) g := by
  induction prs with
  | nil =>
    intro i m out hm hok j g hg
    simp only [fromPairsAux] at hok
    injection hok with h
    subst h
    simp at hg
  | cons hd rest ih =>
    intro i m out hm hok j g hg
    obtain ⟨name, rhs⟩ := hd
    cases hdup : (m.lookup name).isSome with
    | true => simp [fromPairsAux, hdup] at hok
    | false =>
      cases hconst : isConst name with
      | true => simp [fromPairsAux, hdup, hconst] at hok
      | false =>
        simp only [fromPairsAux, hdup, hconst, Bool.false_eq_true,
          if_false, bind_ok_iff, pure_eq_ok, Except.ok.injEq] at hok
        obtain ⟨f0, hf0, ⟨fs, m'⟩, hrest, heq⟩ := hok
        subst heq
        have hm' : MapBelow ((name, some i) :: m) (i + 1) := by
          intro nm k hl
          simp only [List.lookup] at hl
          cases hbeq : nm == name with
          | true =>
            rw [hbeq] at hl
            injection hl with h1
            injection h1 with h2
            omega
          | false =>
            rw [hbeq] at hl
            exact lt_trans (hm nm k hl) (Nat.lt_succ_self i)
        cases j with
        | zero =>
          simp at hg
          subst hg
          simpa using build_wft_all.1 rhs ((name, some i) :: m)
            (i + 1) _ hm' hf0
        | succ j =>
          simp at hg
          have h2 := ih (i + 1) ((name, some i) :: m) (fs, m') hm' hrest
            j g (by simpa [List.get?_eq_getElem?] using hg)
          have harith : i + 1 + j + 1 = i + (j + 1) + 1 := by omega
          rwa [harith] at h2

theorem exists_uniform_fuel_ok (as : List Function) (t : ℝ)
    (l : List Function)
    (h : ∀ g ∈ l, ∃ fuel v, evalF fuel g t as = .ok v) :
    ∃ fuel, ∀ g ∈ l, ∃ v, evalF fuel g t as = .ok v := by
  induction l with
  | nil => exact ⟨1, by simp⟩
  | cons g l ih =>
    obtain ⟨f1, v1, hf1⟩ := h g (List.mem_cons_self g l)
    obtain ⟨f2, hf2⟩ := ih (fun g' hg' => h g' (List.mem_cons_of_mem _ hg'))
    refine ⟨max f1 f2, ?_⟩
    intro g' hg'
    rcases List.mem_cons.mp hg' with rfl | hmem
    · exact ⟨v1, by
        rw [evalF_ge (le_max_left f1 f2) g' t as (by rw [hf1]; simp), hf1]⟩
    · obtain ⟨v2, hv2⟩ := hf2 g' hmem
      exact ⟨v2, by
        rw [evalF_ge (le_max_right f1 f2) g' t as (by rw [hv2]; simp), hv2]⟩

theorem foldlM_all_ok {E α β : Type} (l : List α) (s : β → α → Except E β)
    (h : ∀ acc a, a ∈ l → ∃ b, s acc a = .ok b) :
    ∀ acc, ∃ b, l.foldlM s acc = .ok b := by
  induction l with
  | nil => intro acc; exact ⟨acc, by simp [List.foldlM_nil]⟩
  | cons a l ih =>
    intro acc
    obtain ⟨b, hb⟩ := h acc a (List.mem_cons_self a l)
    obtain ⟨b', hb'⟩ :=
      ih (fun acc' a' ha' => h acc' a' (List.mem_cons_of_mem _ ha')) b
    exact ⟨b', by rw [List.foldlM_cons, hb, ok_bind, hb']⟩

/-- Totality of the evaluator over a strictly-referencing assignment list:
every index-and-operator well-formed tree evaluates to a value with
sufficient fuel. -/
theorem evalF_total_ok (as : List Function)
    (hsa : ∀ j g, as.get? j = some g → WFT j g) :
    ∀ n, n ≤ as.length → ∀ f, WFT n f → ∀ t,
      ∃ fuel v, evalF fuel f t as = .ok v := by
  intro n
  induction n using Nat.strong_induction_on with
  | _ n ihn =>
    intro hn f hf t
    induction hf with
    | var_t => exact ⟨1, t, rfl⟩
    | var i hi =>
      have hi_len : i < as.length := lt_of_lt_of_le hi hn
      obtain ⟨g, hg⟩ : ∃ g, as.get? i = some g := by
        rw [List.get?_eq_get hi_len]; exact ⟨_, rfl⟩
      obtain ⟨fuel, v, hv⟩ :=
        ihn i hi (le_of_lt hi_len) g (hsa i g hg) t
      exact ⟨fuel + 1, v, by rw [evalF_var_some fuel i t as g hg]; exact hv⟩
    | const c => exact ⟨1, c, rfl⟩
    | add fs hall hops ihall =>
      have hex : ∀ g ∈ fs.map Prod.fst, ∃ fu v, evalF fu g t as = .ok v := by
        intro g hg
        obtain ⟨p, hp, rfl⟩ := List.mem_map.mp hg
        exact ihall p hp
      obtain ⟨fuel, hfuel⟩ := exists_uniform_fuel_ok as t _ hex
      have hstep : ∀ (acc : ℝ) p, p ∈ fs → ∃ b, (do
          let v ← evalF fuel p.1 t as
          match applyAdd acc v p.2 with
          | some r => pure r
          | none => .error .unreachableOp) = Except.ok b := by
        intro acc p hp
        obtain ⟨v, hv⟩ := hfuel p.1 (List.mem_map_of_mem _ hp)
        rcases hops p hp with h2 | h2
        · exact ⟨acc + v, by rw [hv, ok_bind, h2]; rfl⟩
        · exact ⟨acc - v, by rw [hv, ok_bind, h2]; rfl⟩
      obtain ⟨b, hb⟩ := foldlM_all_ok fs _ hstep (0 : ℝ)
      exact ⟨fuel + 1, b, by rw [evalF_add fuel]; exact hb⟩
    | mul fs hall ihall =>
      have hex : ∀ g ∈ fs.map Prod.fst, ∃ fu v, evalF fu g t as = .ok v := by
        intro g hg
        obtain ⟨p, hp, rfl⟩ := List.mem_map.mp hg
        exact ihall p hp
      obtain ⟨fuel, hfuel⟩ := exists_uniform_fuel_ok as t _ hex
      have hstep : ∀ (acc : ℝ) p, p ∈ fs → ∃ b, (do
          let v ← evalF fuel p.1 t as
          pure (applyMul acc v p.2)) = Except.ok b := by
        intro acc p hp
        obtain ⟨v, hv⟩ := hfuel p.1 (List.mem_map_of_mem _ hp)
        exact ⟨applyMul acc v p.2, by rw [hv, ok_bind]; rfl⟩
      obtain ⟨b, hb⟩ := foldlM_all_ok fs _ hstep (1 : ℝ)
      exact ⟨fuel + 1, b, by rw [evalF_mul fuel]; exact hb⟩
    | exp fs hall ihall =>
      obtain ⟨fuel, hfuel⟩ := exists_uniform_fuel_ok as t fs
        (fun g hg => ihall g hg)
      have hstep : ∀ (acc : ℝ) g, g ∈ fs.reverse → ∃ b, (do
          let v ← evalF fuel g t as
          pure (v ^ acc)) = Except.ok b := by
        intro acc g hg
        obtain ⟨v, hv⟩ := hfuel g (List.mem_reverse.mp hg)
        exact ⟨v ^ acc, by rw [hv, ok_bind]; rfl⟩
      obtain ⟨b, hb⟩ := foldlM_all_ok fs.reverse _ hstep (1 : ℝ)
      exact ⟨fuel + 1, b, by rw [evalF_exp fuel]; exact hb⟩
    | neg g hg ihg =>
      obtain ⟨fuel, v, hv⟩ := ihg
      exact ⟨fuel + 1, -v, by rw [evalF_neg fuel, hv, ok_bind]; rfl⟩
    | call1 c g hg ihg =>
      obtain ⟨fuel, v, hv⟩ := ihg
      exact ⟨fuel + 1, c.app v,
        by rw [evalF_call1 fuel, hv, ok_bind]; rfl⟩
    | call2 c g1 g2 hg1 hg2 ih1 ih2 =>
      obtain ⟨fu1, v1, h1⟩ := ih1
      obtain ⟨fu2, v2, h2⟩ := ih2
      refine ⟨max fu1 fu2 + 1, c.app v1 v2, ?_⟩
      rw [evalF_call2 (max fu1 fu2),
        evalF_ge (le_max_left fu1 fu2) g1 t as (by rw [h1]; simp), h1,
        ok_bind,
        evalF_ge (le_max_right fu1 fu2) g2 t as (by rw [h2]; simp), h2,
        ok_bind]
      rfl

/-- C7 amended: for every successfully compiled `Parametric` whose
assignment list is strictly referencing — each `assigns[j]` refers only to
`t` and indices `< j`, i.e. no assignment references itself — and every
`t`, evaluation terminates: with sufficient fuel (recursion depth) it
produces a value, and no panic or unbounded recursion occurs.  (The
compiler does admit self-referencing assignments such as `u = u`, and on
those the evaluator recurses unboundedly — see the counterexample.) -/
theorem C7_termination (wp : List (String × PT)) (xpt ypt : PT)
    (p : Parametric) (hc : compile wp xpt ypt = .ok p)
    (hstrict : ∀ j g, p.assigns.get? j = some g → Refs j g) (t : ℝ) :
    ∃ fuel v, p.eval fuel t = .ok v := by
  simp only [compile, fromPairs, bind_ok_iff, pure_eq_ok,
    Except.ok.injEq] at hc
  obtain ⟨⟨as, m⟩, hfp, fx, hfx, fy, hfy, heq⟩ := hc
  subst heq
  simp only at hstrict ⊢
  have hm0 : MapBelow [("t", none)] 0 := by
    intro nm k hl
    simp only [List.lookup] at hl
    cases hbeq : nm == "t" with
    | true => rw [hbeq] at hl; cases hl
    | false => rw [hbeq] at hl; cases hl
  have hlen : as.length = wp.length :=
    (fromPairsAux_bound wp 0 [("t", none)] (as, m) hm0 hfp).1
  have hmb : MapBelow m as.length := by
    have h2 := (fromPairsAux_bound wp 0 [("t", none)] (as, m) hm0 hfp).2.1
    have harith : (0 : ℕ) + wp.length = as.length := by omega
    rwa [harith] at h2
  have hsa : ∀ j g, as.get? j = some g → WFT j g := by
    intro j g hg
    have hwft := fromPairsAux_wft wp 0 [("t", none)] (as, m) hm0 hfp j g hg
    exact WFT.of_refs hwft (hstrict j g hg)
  have hwx : WFT as.length fx := build_wft_all.1 xpt m as.length fx hmb hfx
  have hwy : WFT as.length fy := build_wft_all.1 ypt m as.length fy hmb hfy
  obtain ⟨fu1, v1, h1⟩ :=
    evalF_total_ok as hsa as.length le_rfl fx hwx t
  obtain ⟨fu2, v2, h2⟩ :=
    evalF_total_ok as hsa as.length le_rfl fy hwy t
  refine ⟨max fu1 fu2, (f32round v1, f32round v2), ?_⟩
  simp only [Parametric.eval]
  rw [evalF_ge (le_max_left fu1 fu2) fx t as (by rw [h1]; simp), h1,
    ok_bind,
    evalF_ge (le_max_right fu1 fu2) fy t as (by rw [h2]; simp), h2,
    ok_bind]
  rfl

/-- Witness for the amended C7: the `where` clause `u = 1` with
`x(t) = u`, `y(t) = t` compiles, is strictly referencing, and its
evaluation at `t = 0` terminates with a value. -/
theorem C7_termination_witness :
    ∃ fuel v, Parametric.eval
      ⟨.Var (some 0), .Var none, [.Const 1], none, none, none⟩ fuel 0 =
        .ok v :=
  C7_termination [("u", PT.constant 1)] (.var "u") (.var "t")
    ⟨.Var (some 0), .Var none, [.Const 1], none, none, none⟩
    (by simp [compile, fromPairs, fromPairsAux, build, List.lookup,
      constsLookup, CONSTS, isConst])
    (by
      intro j g hg
      cases j with
      | zero =>
        simp at hg
        subst hg
        exact Refs.const 1
      | succ j => simp at hg)
    0

end GraphWar
